import Mathlib

/-!
# Nexus: the autoregressive decoding loop of `src/main.cpp`

A shallow embedding of the decoding core of `class Nexus` and of the request
validation of the `/api/compose` route.

* Logits are rationals: every finite `float` is one. `shape` divides and adds
  exactly (the claims stated over the reals); `shape32` has the division of line 77
  in binary32 arithmetic. A logit that the top-k step overwrites with `-INFINITY`
  is `⊥`.
* The exponential (`std::exp`) is a parameter `ex`; the theorems instantiate it with
  the real exponential, and `exp(-INFINITY)` is `0`.
* `std::nth_element`, the forward pass (`model.Run`), the random draw of
  `sampling` and the tokenizer are library or service calls: they are parameters.
* Where the C++ reads out of range or leaves real arithmetic (a division by zero,
  `-inf - -inf`), the value is not determined here and the shaping functions answer
  `none`. The C++ has no check at these places and goes on: so does `loop`, with a
  draw that nothing constrains.
-/

namespace Nexus

/-! ## Distribution shaping: `softmax` and the top-k step of `inference` -/

section Shaper

variable {F : Type} [LinearOrderedField F]

/-- Value that `*std::max_element(logits.begin(), logits.end())` reads (line 25): the
scan keeps the first largest element; `none` when the range is empty (the end
iterator is dereferenced). -/
def max_element : List (WithBot ℚ) → Option (WithBot ℚ)
  | [] => none
  | x :: xs => some (xs.foldl (fun largest y => if largest < y then y else largest) x)

/-- Term `std::exp(logits[i] - max_logit)` of line 28 for a finite `max_logit`;
`exp(-INFINITY)` is `0`. -/
def expShifted (ex : ℚ → F) (max_logit : ℚ) : WithBot ℚ → F
  | none => 0
  | some l => ex (l - max_logit)

/-- Accumulator `sum` of lines 26-30: the running sum of the shifted exponentials,
started at `0.0f`. -/
def expSum (ex : ℚ → F) (max_logit : ℚ) (logits : List (WithBot ℚ)) : F :=
  (logits.map (expShifted ex max_logit)).foldl (fun sum p => sum + p) 0

/-- Function `Nexus::softmax` (lines 23-33). `none` when the input is empty, when
every logit is `-INFINITY` (then `logits[i] - max_logit` is not a number) or when
`sum` is zero (the division of line 31 is not a real number). -/
def softmax (ex : ℚ → F) (logits : List (WithBot ℚ)) : Option (List F) :=
  match max_element logits with
  | none => none
  | some none => none
  | some (some max_logit) =>
    let probabilities := logits.map (expShifted ex max_logit)
    let sum := expSum ex max_logit logits
    if sum = 0 then none else some (probabilities.map (fun probability => probability / sum))

/-- Lines 75-78: every raw logit of the last row divided by `temperature`. -/
def scale (raw_logits : List ℚ) (temperature : ℚ) : List ℚ :=
  raw_logits.map (fun l => l / temperature)

/-- Lines 80-82: `sorted` is a copy of the scaled logits handed to
`std::nth_element` with `nth = sorted.begin() + top` (the parameter `sel`), and
`threshold` is `sorted[top - 1]`. `none` when `sorted.begin() + top` is not an
iterator of the range (`top < 0` or `top > vocab_size`) or when the index `top - 1`
is out of range (`top = 0`): the read is unchecked and what it yields is not
determined. -/
def threshold (sel : List ℚ → Nat → List ℚ) (logits : List ℚ) (top : Int) : Option ℚ :=
  if top < 0 ∨ (logits.length : Int) < top then none
  else if top < 1 then none
  else (sel logits top.toNat)[top.toNat - 1]?

/-- Lines 83-85: every logit strictly below `threshold` becomes `-INFINITY`. -/
def maskBelow (logits : List ℚ) (threshold : ℚ) : List (WithBot ℚ) :=
  logits.map (fun l => if l < threshold then (⊥ : WithBot ℚ) else (l : WithBot ℚ))

/-- Lines 75-87 of `Nexus::inference`: temperature scaling, top-k truncation and
`softmax`, the "Distribution Shaper" of the specification, in exact arithmetic.
`none` stands for a distribution that is not determined here: a zero `temperature`
(the quotients are infinite or not numbers), a threshold read out of range, or a
`softmax` outside the reals. -/
def shape (sel : List ℚ → Nat → List ℚ) (ex : ℚ → F) (raw_logits : List ℚ)
    (temperature : ℚ) (top : Int) : Option (List F) :=
  if temperature = 0 then none
  else
    match threshold sel (scale raw_logits temperature) top with
    | none => none
    | some t => softmax ex (maskBelow (scale raw_logits temperature) t)

/-- Rounding of a rational to the nearest integer, ties to the even one. -/
def roundTiesEven (m : ℚ) : Int :=
  if m - ⌊m⌋ < 1 / 2 then ⌊m⌋
  else if 1 / 2 < m - ⌊m⌋ then ⌊m⌋ + 1
  else if ⌊m⌋ % 2 = 0 then ⌊m⌋
  else ⌊m⌋ + 1

/-- Binary exponent of a positive rational `q`: the `e` with `2 ^ e ≤ q < 2 ^ (e + 1)`. -/
def binaryExponent (q : ℚ) : Int :=
  Int.log 2 q

/-- Unit in the last place of a binary32 number of exponent `e`: `2 ^ (e - 23)`. -/
def ulp32 (e : Int) : ℚ :=
  (2 : ℚ) ^ (e - 23)

/-- Rounding of a real number to `float` (IEEE 754 binary32, round to nearest, ties
to even): a significand of 24 bits, exponents from `-126` on (below that the
subnormal spacing); `none` when the rounded magnitude reaches `2 ^ 128`, where the
`float` is an infinity. -/
def roundFloat32 (q : ℚ) : Option ℚ :=
  if q = 0 then some 0
  else
    let ulp := ulp32 (max (binaryExponent |q|) (-126))
    let r : ℚ := (roundTiesEven (q / ulp) : ℚ) * ulp
    if (2 : ℚ) ^ (128 : Int) ≤ |r| then none else some r

/-- Quotient `a / b` of two `float`s as line 77 computes it: the exact quotient
rounded to `float`; `none` when the result is not finite. -/
def fdiv32 (a b : ℚ) : Option ℚ :=
  if b = 0 then none else roundFloat32 (a / b)

/-- Lines 75-78 in binary32 arithmetic: every raw logit divided by `temperature`
with `fdiv32`; `none` when a quotient is not finite. -/
def scale32 : List ℚ → ℚ → Option (List ℚ)
  | [], _ => some []
  | l :: ls, temperature =>
    match fdiv32 l temperature, scale32 ls temperature with
    | some x, some xs => some (x :: xs)
    | _, _ => none

/-- Lines 75-87 of `Nexus::inference` with the division of line 77 in binary32
arithmetic: `scale32`, then the threshold, the masking and `softmax` as in `shape`. -/
def shape32 (sel : List ℚ → Nat → List ℚ) (ex : ℚ → F) (raw_logits : List ℚ)
    (temperature : ℚ) (top : Int) : Option (List F) :=
  match scale32 raw_logits temperature with
  | none => none
  | some logits =>
    match threshold sel logits top with
    | none => none
    | some t => softmax ex (maskBelow logits t)

end Shaper

/-- Postcondition the C++ standard gives `std::nth_element(first, first + n, last,
std::greater)`: the range is permuted, and when `first + n` is not `last` no
element from position `n` on is greater than an element before position `n`
(so the element at `n` is the one a full descending sort puts there). -/
def NthElementPost (sel : List ℚ → Nat → List ℚ) : Prop :=
  ∀ (xs : List ℚ) (n : Nat), (sel xs n).Perm xs ∧
    (n < xs.length → ∀ i j : Nat, i < n → n ≤ j →
      ∀ a b : ℚ, (sel xs n)[i]? = some a → (sel xs n)[j]? = some b → b ≤ a)

/-- Reference behaviour of `std::nth_element` with `std::greater`: the call
returns at once when `nth == last` (libstdc++, libc++ and the MSVC library all
start with this test) and otherwise leaves the range in descending order, which
is what libstdc++ does for ranges of at most three elements and one of the
results the standard allows for longer ones. -/
def nth_element (xs : List ℚ) (n : Nat) : List ℚ :=
  if n = xs.length then xs else xs.insertionSort (fun a b => b ≤ a)

/-! ## The decoding loop -/

/-- Lines 50-52: when the context is longer than `size_context`, the elements
before `context.end() - size_context` are erased. -/
def truncate (context : List Int) (size_context : Nat) : List Int :=
  if context.length > size_context then context.drop (context.length - size_context)
  else context

/-- Offset that `std::find` returns from the start of the range: the position of
the first element equal to `value`, the length of the range (the end iterator)
when there is none. -/
def find : List Int → Int → Nat
  | [], _ => 0
  | x :: xs, value => if x = value then 0 else find xs value + 1

/-- Lines 92-96, run when the sampled token is `2`: the context is scanned from the
back for the literal id `1`; when it is found at offset `it - rbegin()`, the
context is cut to start at `idx = size - 1 - offset`. -/
def stopSpan (context : List Int) : List Int :=
  let offset := find context.reverse 1
  if offset ≠ context.length then context.drop (context.length - 1 - offset)
  else context

/-- How `inference` was left: by the `break` of line 97, by the loop condition of
line 49, or by an exception of `model.Run`. -/
inductive Exit where
  | stoppedByTerminator
  | stoppedByLimit
  | thrown
  deriving DecidableEq, Repr

/-- Result of a run of `inference`: the returned context (`none` when nothing is
returned), the number of `model.Run` calls, the number of `push_back` calls, and
how the loop was left. -/
structure Outcome where
  context : Option (List Int)
  calls : Nat
  appended : Nat
  exit : Exit
  deriving DecidableEq, Repr

/-- Row `context.size() - 1` of the logits tensor (line 77); `none` when the tensor
has no such row (for an empty context the index wraps around). -/
def lastRow (rows : List (List ℚ)) (context : List Int) : Option (List ℚ) :=
  if context.length = 0 then none else rows[context.length - 1]?

section Loop

variable {F : Type} [LinearOrderedField F]

/-- Loop of lines 49-99 with `remaining` iterations left, `pos` being the loop
counter. `run` is `model.Run` on the context (`none` when it throws), giving one
logit row per position; `sampling pos probs` is the index that `sampling` draws
in iteration `pos`. Each iteration makes exactly one `model.Run` call. Lines 71-89
have no check and no `throw`: when the tensor lacks the row that line 77 reads or
`shape` does not determine the distribution (`none`), the iteration goes on all the
same, and the draw is `sampling pos []`, an index that nothing constrains. -/
def loop (run : List Int → Option (List (List ℚ))) (sampling : Nat → List F → Nat)
    (sel : List ℚ → Nat → List ℚ) (ex : ℚ → F) (size_context : Nat) (temperature : ℚ)
    (top : Int) : Nat → Nat → List Int → Outcome
  | 0, pos, context => ⟨some context, pos, pos, Exit.stoppedByLimit⟩
  | remaining + 1, pos, context =>
    let windowed := truncate context size_context
    match run windowed with
    | none => ⟨none, pos + 1, pos, Exit.thrown⟩
    | some rows =>
      let probs := ((lastRow rows windowed).bind
        (fun raw_logits => shape sel ex raw_logits temperature top)).getD []
      let next := sampling pos probs
      let grown := windowed ++ [(next : Int)]
      if next = 2 then ⟨some (stopSpan grown), pos + 1, pos + 1, Exit.stoppedByTerminator⟩
      else loop run sampling sel ex size_context temperature top remaining (pos + 1) grown

/-- Function `Nexus::inference` (lines 41-102). The loop runs while
`pos < size_context / 2`; for a negative `size_context` the C++ quotient is not
positive and so is the floor quotient used here, and inside the loop
`size_context` is at least `2`, so its conversion to `size_t` keeps its value. -/
def inference (run : List Int → Option (List (List ℚ))) (sampling : Nat → List F → Nat)
    (sel : List ℚ → Nat → List ℚ) (ex : ℚ → F) (context : List Int) (size_context : Int)
    (temperature : ℚ) (top : Int) : Outcome :=
  loop run sampling sel ex size_context.toNat temperature top (size_context / 2).toNat 0 context

end Loop

/-! ## Request framing -/

/-- The calls of `sentencepiece::SentencePieceProcessor` that the class uses. -/
structure Tokenizer where
  PieceToId : String → Int
  Encode : String → List Int
  Decode : List Int → Option String

/-- Function `Nexus::preprocess` (lines 104-116). -/
def preprocess (tokenizer : Tokenizer) (prompt : String) : List Int :=
  [tokenizer.PieceToId "<|BEGIN|>"] ++ tokenizer.Encode prompt ++
    [tokenizer.PieceToId "<|END|>", tokenizer.PieceToId "<|SEPARATOR|>",
      tokenizer.PieceToId "<|BEGIN|>"]

/-- Conversion of an `int64_t` to `int`, as in `std::vector<int>(result.begin(),
result.end())` of line 142. -/
def toInt32 (x : Int) : Int :=
  (x + 2 ^ 31) % 2 ^ 32 - 2 ^ 31

/-- Function `Nexus::postprocess` (lines 118-124); `none` stands for the
`std::runtime_error` thrown when the tokenizer rejects the ids. -/
def postprocess (tokenizer : Tokenizer) (encoded : List Int) : Option String :=
  tokenizer.Decode encoded

section Process

variable {F : Type} [LinearOrderedField F]

/-- Function `Nexus::process` (lines 138-145): the outcome of `inference` on the
framed prompt and, when a context is returned, the decoded answer. -/
def process (tokenizer : Tokenizer) (run : List Int → Option (List (List ℚ)))
    (sampling : Nat → List F → Nat) (sel : List ℚ → Nat → List ℚ) (ex : ℚ → F)
    (prompt : String) (max_context : Int) (temperature : ℚ) (top_k : Int) :
    Outcome × Option String :=
  let result := inference run sampling sel ex (preprocess tokenizer prompt) max_context
    temperature top_k
  (result, result.context.bind (fun ids => postprocess tokenizer (ids.map toInt32)))

end Process

/-! ## Validation of `/api/compose` -/

/-- Parsed JSON value (`nlohmann::json`). -/
inductive Json where
  | null
  | boolean (b : Bool)
  | number (n : ℚ)
  | string (s : String)
  | array (items : List Json)
  | object (members : List (String × Json))

/-- Method `json::contains(key)`: false for a value that is not an object. -/
def Json.contains : Json → String → Bool
  | Json.object members, key => members.any (fun member => member.1 == key)
  | _, _ => false

/-- Value `j[key]`: the member stored under `key`; for an object without the key
the non-const `operator[]` inserts a null and returns it. The handler reads
`j[key]` only after `j.contains(key)`. -/
def Json.get : Json → String → Json
  | Json.object members, key => (members.lookup key).getD Json.null
  | _, _ => Json.null

/-- Method `json::is_string()`. -/
def Json.is_string : Json → Bool
  | Json.string _ => true
  | _ => false

/-- Method `json::is_null()`. -/
def Json.is_null : Json → Bool
  | Json.null => true
  | _ => false

/-- Method `json::is_object()`. -/
def Json.is_object : Json → Bool
  | Json.object _ => true
  | _ => false

/-- One entry of the `errors` vector: location, message and error type. -/
structure FieldError where
  loc : List String
  msg : String
  err_type : String
  deriving DecidableEq, Repr

/-- Lines 197-211 of the `/api/compose` handler: the field errors collected for
the parsed body `j`. -/
def composeErrors (j : Json) : List FieldError :=
  let errors : List FieldError := []
  let errors :=
    if !j.contains "query" || !(j.get "query").is_string then
      errors ++ [⟨["query"], "Field required", "value_error.missing"⟩]
    else errors
  let errors :=
    if !j.contains "metadata" then
      errors ++ [⟨["metadata"], "Field required", "value_error.missing"⟩]
    else if !(j.get "metadata").is_null && !(j.get "metadata").is_object then
      errors ++ [⟨["metadata"], "Input should be an object or null", "type_error"⟩]
    else errors
  errors

/-- Function `build_validation_error` (lines 150-160): the object with the one
member `detail`, an array holding for each error the object of its `loc`, `msg`
and `type`. -/
def build_validation_error (errors : List FieldError) : Json :=
  Json.object [("detail", Json.array (errors.map (fun e =>
    Json.object [("loc", Json.array (e.loc.map Json.string)), ("msg", Json.string e.msg),
      ("type", Json.string e.err_type)])))]

/-- What the `/api/compose` handler does with a request: an answer with status 500
or 422 and its body, or the call `g_nexus->process(prompt, max_context,
temperature, top_k)`. -/
inductive Reply where
  | status500 (error : String)
  | status422 (content : Json)
  | callsProcess (prompt : String) (max_context : Int) (temperature : ℚ) (top_k : Int)

/-- Handler of `/api/compose` (lines 178-239) up to the call
`g_nexus->process(prompt, 1024, 1.0f, 1)`. `loaded` tells whether `g_nexus` is set,
`parsed` is the result of `nlohmann::json::parse(req.body)`, `none` for a parse
error. The last branch is not reachable: an empty error list means that `query` is
a string. -/
def compose (loaded : Bool) (body : String) (parsed : Option Json) : Reply :=
  if !loaded then Reply.status500 "Model not loaded"
  else if body.isEmpty then
    Reply.status422
      (build_validation_error [⟨["body"], "Request body is empty", "value_error.missing"⟩])
  else
    match parsed with
    | none =>
      Reply.status422
        (build_validation_error [⟨["body"], "Invalid JSON", "value_error.jsondecode"⟩])
    | some j =>
      if !(composeErrors j).isEmpty then Reply.status422 (build_validation_error (composeErrors j))
      else
        match j.get "query" with
        | Json.string prompt => Reply.callsProcess prompt 1024 1 1
        | _ => Reply.status500 "type must be string"

/-! ## Test doubles

The stubs of the specification's scenarios, used to instantiate the theorems at
concrete inputs. -/

/-- Forward-pass stub: one logit row per context position, every row with its
strictly largest entry at index `2`. -/
def stubRun (context : List Int) : Option (List (List ℚ)) :=
  some (List.replicate context.length [0, 0, 1])

/-- Sampler stub: the first index of non-zero probability. -/
def firstNonZero {F : Type} [LinearOrderedField F] (_pos : Nat) (probs : List F) : Nat :=
  probs.findIdx (fun p => decide (p ≠ 0))

/-- Sampler stub: the listed indices in turn, index `2` once they are used up. -/
def scripted {F : Type} (draws : List Nat) (pos : Nat) (_probs : List F) : Nat :=
  draws.getD pos 2

/-- Tokenizer stub: `begin_id` for the piece `<|BEGIN|>`, `6` for `<|END|>`, `7` for
any other piece, and the same encoding for every text. -/
def stubTokenizer (begin_id : Int) (encoded : List Int) : Tokenizer :=
  ⟨fun piece => if piece = "<|BEGIN|>" then begin_id else if piece = "<|END|>" then 6 else 7,
    fun _ => encoded, fun _ => none⟩

/-! # Lemmas -/

/-! ## Windowing -/

theorem truncate_length (context : List Int) (W : Nat) :
    (truncate context W).length = min context.length W := by
  unfold truncate
  split
  · simp only [List.length_drop]; omega
  · omega

theorem truncate_of_le (context : List Int) (W : Nat) (h : context.length ≤ W) :
    truncate context W = context := by
  unfold truncate
  rw [if_neg (by omega)]

/-! ## Stop-span extraction -/

theorem find_of_not_mem (xs : List Int) (value : Int) (h : value ∉ xs) :
    find xs value = xs.length := by
  induction xs with
  | nil => rfl
  | cons x xs ih =>
    have hx : x ≠ value := fun e => h (by simp [e])
    have hxs : value ∉ xs := fun e => h (by simp [e])
    simp [find, hx, ih hxs]

theorem find_append_cons (xs ys : List Int) (value : Int) (h : value ∉ xs) :
    find (xs ++ value :: ys) value = xs.length := by
  induction xs with
  | nil => simp [find]
  | cons x xs ih =>
    have hx : x ≠ value := fun e => h (by simp [e])
    have hxs : value ∉ xs := fun e => h (by simp [e])
    simp [find, hx, ih hxs]

theorem stopSpan_of_last (pre suf : List Int) (h : (1 : Int) ∉ suf) :
    stopSpan (pre ++ 1 :: suf) = 1 :: suf := by
  have hr : (pre ++ 1 :: suf).reverse = suf.reverse ++ 1 :: pre.reverse := by simp
  have hf : find (pre ++ 1 :: suf).reverse 1 = suf.length := by
    rw [hr, find_append_cons _ _ _ (by simpa using h)]
    simp
  unfold stopSpan
  simp only [hf]
  rw [if_pos (by simp; omega)]
  have hl : (pre ++ 1 :: suf).length - 1 - suf.length = pre.length := by
    simp
  rw [hl, List.drop_left' rfl]

theorem stopSpan_of_not_mem (context : List Int) (h : (1 : Int) ∉ context) :
    stopSpan context = context := by
  have hf : find context.reverse 1 = context.length := by
    rw [find_of_not_mem _ _ (by simpa using h)]
    simp
  unfold stopSpan
  simp [hf]

/-! ## The loop -/

section LoopFacts

variable {F : Type} [LinearOrderedField F]

/-- One iteration whose draw is the terminator: the loop is left by the `break`. -/
theorem loop_terminator (run : List Int → Option (List (List ℚ)))
    (sampling : Nat → List F → Nat) (sel : List ℚ → Nat → List ℚ) (ex : ℚ → F) (W : Nat)
    (T : ℚ) (top : Int) (remaining pos : Nat) (context : List Int) (rows : List (List ℚ))
    (raw : List ℚ) (probs : List F) (hrun : run (truncate context W) = some rows)
    (hrow : lastRow rows (truncate context W) = some raw)
    (hshape : shape sel ex raw T top = some probs) (hnext : sampling pos probs = 2) :
    loop run sampling sel ex W T top (remaining + 1) pos context =
      ⟨some (stopSpan (truncate context W ++ [2])), pos + 1, pos + 1,
        Exit.stoppedByTerminator⟩ := by
  simp [loop, hrun, hrow, hshape, hnext]

/-- One iteration whose draw is not the terminator: the loop goes on with the
drawn token appended. -/
theorem loop_continue (run : List Int → Option (List (List ℚ)))
    (sampling : Nat → List F → Nat) (sel : List ℚ → Nat → List ℚ) (ex : ℚ → F) (W : Nat)
    (T : ℚ) (top : Int) (remaining pos : Nat) (context : List Int) (rows : List (List ℚ))
    (raw : List ℚ) (probs : List F) (hrun : run (truncate context W) = some rows)
    (hrow : lastRow rows (truncate context W) = some raw)
    (hshape : shape sel ex raw T top = some probs) (hnext : sampling pos probs ≠ 2) :
    loop run sampling sel ex W T top (remaining + 1) pos context =
      loop run sampling sel ex W T top remaining (pos + 1)
        (truncate context W ++ [(sampling pos probs : Int)]) := by
  simp [loop, hrun, hrow, hshape, hnext]

/-- Counters of the loop: started at `pos`, the number of forward-pass calls ends
between `pos` and `pos + remaining`, and no more tokens are appended than calls
are made. -/
theorem loop_counters (run : List Int → Option (List (List ℚ)))
    (sampling : Nat → List F → Nat) (sel : List ℚ → Nat → List ℚ) (ex : ℚ → F) (W : Nat)
    (T : ℚ) (top : Int) (remaining pos : Nat) (context : List Int) :
    pos ≤ (loop run sampling sel ex W T top remaining pos context).appended ∧
    (loop run sampling sel ex W T top remaining pos context).appended ≤
      (loop run sampling sel ex W T top remaining pos context).calls ∧
    (loop run sampling sel ex W T top remaining pos context).calls ≤ pos + remaining ∧
    ((loop run sampling sel ex W T top remaining pos context).exit = Exit.stoppedByLimit →
      (loop run sampling sel ex W T top remaining pos context).calls = pos + remaining) := by
  induction remaining generalizing pos context with
  | zero => simp [loop]
  | succ r ih =>
    rw [loop]
    simp only
    split
    · simp
    · split
      · simp
      · rename_i rows _ _
        have h := ih (pos + 1) (truncate context W ++
          [(sampling pos (((lastRow rows (truncate context W)).bind
            (fun raw => shape sel ex raw T top)).getD []) : Int)])
        refine ⟨by omega, h.2.1, by omega, fun e => ?_⟩
        have := h.2.2.2 e
        omega

/-- An iteration that is started makes its forward-pass call, whatever the
temperature and `top` are. -/
theorem loop_first_call (run : List Int → Option (List (List ℚ)))
    (sampling : Nat → List F → Nat) (sel : List ℚ → Nat → List ℚ) (ex : ℚ → F) (W : Nat)
    (T : ℚ) (top : Int) (remaining pos : Nat) (context : List Int) :
    pos + 1 ≤ (loop run sampling sel ex W T top (remaining + 1) pos context).calls := by
  rw [loop]
  simp only
  split
  · simp
  · split
    · simp
    · rename_i rows _ _
      have h := loop_counters run sampling sel ex W T top remaining (pos + 1)
        (truncate context W ++
          [(sampling pos (((lastRow rows (truncate context W)).bind
            (fun raw => shape sel ex raw T top)).getD []) : Int)])
      omega

end LoopFacts

/-! ## Shaping -/

section ShaperFacts

variable {F : Type} [LinearOrderedField F]

/-- The scan of `max_element` started at `x`: the result is `x` or a later
element, and nothing scanned is above it. -/
theorem foldl_largest (xs : List (WithBot ℚ)) (x : WithBot ℚ) :
    (xs.foldl (fun largest y => if largest < y then y else largest) x = x ∨
      xs.foldl (fun largest y => if largest < y then y else largest) x ∈ xs) ∧
    x ≤ xs.foldl (fun largest y => if largest < y then y else largest) x ∧
    ∀ y ∈ xs, y ≤ xs.foldl (fun largest y => if largest < y then y else largest) x := by
  induction xs generalizing x with
  | nil => simp
  | cons a as ih =>
    simp only [List.foldl_cons, List.mem_cons, forall_eq_or_imp]
    by_cases h : x < a
    · rw [if_pos h]
      obtain ⟨h1, h2, h3⟩ := ih a
      refine ⟨?_, le_trans (le_of_lt h) h2, h2, h3⟩
      rcases h1 with h1 | h1
      · exact Or.inr (Or.inl h1)
      · exact Or.inr (Or.inr h1)
    · rw [if_neg h]
      obtain ⟨h1, h2, h3⟩ := ih x
      refine ⟨?_, h2, le_trans (not_lt.mp h) h2, h3⟩
      rcases h1 with h1 | h1
      · exact Or.inl h1
      · exact Or.inr (Or.inr h1)

/-- On a non-empty range `max_element` reads an element that no element exceeds. -/
theorem max_element_spec (logits : List (WithBot ℚ)) (hne : logits ≠ []) :
    ∃ m, max_element logits = some m ∧ m ∈ logits ∧ ∀ x ∈ logits, x ≤ m := by
  cases logits with
  | nil => exact absurd rfl hne
  | cons a as =>
    obtain ⟨h1, h2, h3⟩ := foldl_largest as a
    refine ⟨_, rfl, ?_, ?_⟩
    · rcases h1 with h1 | h1
      · rw [h1]; exact List.mem_cons_self _ _
      · exact List.mem_cons_of_mem _ h1
    · intro x hx
      rcases List.mem_cons.mp hx with rfl | hx
      · exact h2
      · exact h3 x hx

/-- For valid `top` the read `sorted[top - 1]` succeeds and yields one of the scaled
logits, whatever permutation `std::nth_element` leaves. -/
theorem threshold_mem (sel : List ℚ → Nat → List ℚ) (hsel : NthElementPost sel)
    (logits : List ℚ) (top : Int) (h1 : 1 ≤ top) (h2 : top ≤ logits.length) :
    ∃ t, threshold sel logits top = some t ∧ t ∈ logits := by
  have hperm := (hsel logits top.toNat).1
  have hlen : (sel logits top.toNat).length = logits.length := hperm.length_eq
  have hidx : top.toNat - 1 < (sel logits top.toNat).length := by omega
  refine ⟨(sel logits top.toNat)[top.toNat - 1], ?_, ?_⟩
  · unfold threshold
    rw [if_neg (by omega), if_neg (by omega)]
    exact List.getElem?_eq_getElem hidx
  · exact hperm.mem_iff.mp (List.getElem_mem _)

/-- After masking with a threshold taken from the logits, the maximum that
`softmax` reads is finite: it is the largest logit, which is not below the
threshold and so is never masked. -/
theorem max_element_maskBelow (logits : List ℚ) (t : ℚ) (ht : t ∈ logits) :
    ∃ m : ℚ, max_element (maskBelow logits t) = some (m : WithBot ℚ) ∧ m ∈ logits ∧
      t ≤ m ∧ (∀ l ∈ logits, l ≤ m) ∧ (m : WithBot ℚ) ∈ maskBelow logits t := by
  have htm : (t : WithBot ℚ) ∈ maskBelow logits t := by
    unfold maskBelow
    exact List.mem_map.mpr ⟨t, ht, by simp⟩
  obtain ⟨M, hM, hmem, hle⟩ := max_element_spec (maskBelow logits t)
    (List.ne_nil_of_mem htm)
  have htM := hle _ htm
  obtain ⟨l, hl, hlM⟩ := List.mem_map.mp hmem
  by_cases hlt : l < t
  · rw [if_pos hlt] at hlM
    rw [← hlM] at htM
    exact absurd htM (by simp)
  · rw [if_neg hlt] at hlM
    subst hlM
    refine ⟨l, hM, hl, not_lt.mp hlt, ?_, hmem⟩
    intro l2 hl2
    by_cases h2 : l2 < t
    · exact le_trans (le_of_lt h2) (not_lt.mp hlt)
    · have : ((l2 : ℚ) : WithBot ℚ) ∈ maskBelow logits t := by
        unfold maskBelow
        exact List.mem_map.mpr ⟨l2, hl2, by simp [h2]⟩
      exact WithBot.coe_le_coe.mp (hle _ this)

/-- The accumulator `sum` is the sum of the shifted exponentials. -/
theorem expSum_eq_sum (ex : ℚ → F) (m : ℚ) (logits : List (WithBot ℚ)) :
    expSum ex m logits = (logits.map (expShifted ex m)).sum := by
  unfold expSum
  rw [List.sum_eq_foldl]

theorem expShifted_nonneg (ex : ℚ → F) (hpos : ∀ x, 0 < ex x) (m : ℚ) (l : WithBot ℚ) :
    0 ≤ expShifted ex m l := by
  cases l with
  | bot => exact le_refl _
  | coe x => exact le_of_lt (hpos _)

/-- The denominator of `softmax` is at least the term of the maximum, `exp(0) = 1`. -/
theorem one_le_expSum (ex : ℚ → F) (h0 : ex 0 = 1) (hpos : ∀ x, 0 < ex x) (m : ℚ)
    (logits : List (WithBot ℚ)) (hm : (m : WithBot ℚ) ∈ logits) :
    1 ≤ expSum ex m logits := by
  rw [expSum_eq_sum]
  have hterm : expShifted ex m (m : WithBot ℚ) = 1 := by
    show ex (m - m) = 1
    rw [sub_self, h0]
  rw [← hterm]
  apply List.single_le_sum
  · intro x hx
    obtain ⟨l, _, rfl⟩ := List.mem_map.mp hx
    exact expShifted_nonneg ex hpos m l
  · exact List.mem_map.mpr ⟨_, hm, rfl⟩

/-- Value of `softmax` when the maximum is finite and the denominator is not zero. -/
theorem softmax_eq (ex : ℚ → F) (logits : List (WithBot ℚ)) (m : ℚ)
    (hmax : max_element logits = some (m : WithBot ℚ)) (hsum : expSum ex m logits ≠ 0) :
    softmax ex logits =
      some (logits.map (fun l => expShifted ex m l / expSum ex m logits)) := by
  unfold softmax
  rw [hmax]
  show (if expSum ex m logits = 0 then none else _) = _
  rw [if_neg hsum, List.map_map]
  rfl

theorem sum_map_div (g : WithBot ℚ → F) (s : F) (logits : List (WithBot ℚ)) :
    (logits.map (fun l => g l / s)).sum = (logits.map g).sum / s := by
  induction logits with
  | nil => simp
  | cons a as ih => simp [ih, add_div]

/-- Shaping on valid input, for any exponential with `ex 0 = 1` and positive
values: the threshold is one of the scaled logits, the maximum survives, the
denominator is at least `1`, and the result is a probability distribution. -/
theorem shape_valid (sel : List ℚ → Nat → List ℚ) (hsel : NthElementPost sel)
    (ex : ℚ → F) (h0 : ex 0 = 1) (hpos : ∀ x, 0 < ex x) (raw : List ℚ) (T : ℚ)
    (top : Int) (hT : T ≠ 0) (h1 : 1 ≤ top) (h2 : top ≤ raw.length) :
    ∃ (t m : ℚ),
      threshold sel (scale raw T) top = some t ∧ t ∈ scale raw T ∧
      max_element (maskBelow (scale raw T) t) = some (m : WithBot ℚ) ∧
      (m : WithBot ℚ) ∈ maskBelow (scale raw T) t ∧ (∀ l ∈ scale raw T, l ≤ m) ∧
      1 ≤ expSum ex m (maskBelow (scale raw T) t) ∧
      shape sel ex raw T top = some ((maskBelow (scale raw T) t).map
        (fun l => expShifted ex m l / expSum ex m (maskBelow (scale raw T) t))) := by
  have hlen : (scale raw T).length = raw.length := by simp [scale]
  obtain ⟨t, ht, htmem⟩ := threshold_mem sel hsel (scale raw T) top h1 (by omega)
  obtain ⟨m, hm, _, _, hmle, hmmem⟩ := max_element_maskBelow (scale raw T) t htmem
  have hsum := one_le_expSum ex h0 hpos m _ hmmem
  refine ⟨t, m, ht, htmem, hm, hmmem, hmle, hsum, ?_⟩
  unfold shape
  rw [if_neg hT, ht]
  exact softmax_eq ex _ m hm (ne_of_gt (lt_of_lt_of_le one_pos hsum))

end ShaperFacts

section ShaperTopOne

variable {F : Type} [LinearOrderedField F]

/-- With `top = 1` and at least two logits, `sorted[0]` after `std::nth_element` is
the largest scaled logit. -/
theorem threshold_top_one (sel : List ℚ → Nat → List ℚ) (hsel : NthElementPost sel)
    (logits : List ℚ) (hlen : 1 < logits.length) :
    ∃ t, threshold sel logits 1 = some t ∧ t ∈ logits ∧ ∀ l ∈ logits, l ≤ t := by
  obtain ⟨t, ht, htmem⟩ := threshold_mem sel hsel logits 1 (le_refl _) (by omega)
  refine ⟨t, ht, htmem, ?_⟩
  have hpost := hsel logits 1
  have h0 : (sel logits 1)[0]? = some t := by
    unfold threshold at ht
    rw [if_neg (by omega), if_neg (by omega)] at ht
    simpa using ht
  intro l hl
  obtain ⟨j, hj⟩ := List.mem_iff_getElem?.mp (hpost.1.mem_iff.mpr hl)
  rcases Nat.eq_zero_or_pos j with rfl | hjpos
  · rw [h0] at hj
    exact le_of_eq (Option.some.inj hj).symm
  · exact hpost.2 hlen 0 j (by omega) hjpos t l h0 hj

/-- Shaping with `temperature = 1` and `top = 1` of a row whose strictly largest
entry is `x`: the entry of `x` gets probability `1`, every other entry probability
`0`. -/
theorem shape_strict_max (sel : List ℚ → Nat → List ℚ) (hsel : NthElementPost sel)
    (ex : ℚ → F) (h0 : ex 0 = 1) (A B : List ℚ) (x : ℚ)
    (hlen : 1 < (A ++ x :: B).length) (hA : ∀ a ∈ A, a < x) (hB : ∀ b ∈ B, b < x) :
    shape sel ex (A ++ x :: B) 1 1 =
      some (List.replicate A.length 0 ++ 1 :: List.replicate B.length 0) := by
  have hscale : scale (A ++ x :: B) 1 = A ++ x :: B := by
    simp [scale]
  have hlt : ∀ l ∈ A ++ x :: B, l ≤ x := by
    intro l hl
    rcases List.mem_append.mp hl with h | h
    · exact le_of_lt (hA l h)
    · rcases List.mem_cons.mp h with rfl | h
      · exact le_refl _
      · exact le_of_lt (hB l h)
  have hxmem : x ∈ A ++ x :: B := by simp
  obtain ⟨t, ht, htmem, htle⟩ := threshold_top_one sel hsel (A ++ x :: B) hlen
  have htx : t = x := le_antisymm (hlt t htmem) (htle _ hxmem)
  subst htx
  obtain ⟨m, hm, hmmem, htm, _, _⟩ := max_element_maskBelow (A ++ t :: B) t hxmem
  have hmx : m = t := le_antisymm (hlt m hmmem) htm
  subst hmx
  have hmask : (maskBelow (A ++ m :: B) m).map (expShifted ex m) =
      List.replicate A.length 0 ++ 1 :: List.replicate B.length 0 := by
    have hzero : ∀ (C : List ℚ), (∀ c ∈ C, c < m) →
        List.map (fun l => expShifted ex m
          (if l < m then (⊥ : WithBot ℚ) else ((l : ℚ) : WithBot ℚ))) C =
        List.replicate C.length 0 := by
      intro C hC
      rw [← List.map_const']
      apply List.map_congr_left
      intro c hc
      rw [if_pos (hC c hc)]
      rfl
    have hone : expShifted ex m ((m : ℚ) : WithBot ℚ) = 1 := by
      show ex (m - m) = 1
      rw [sub_self, h0]
    simp only [maskBelow, List.map_append, List.map_cons, List.map_map, lt_self_iff_false,
      if_false, hone, Function.comp_def]
    rw [hzero A hA, hzero B hB]
  have hS : expSum ex m (maskBelow (A ++ m :: B) m) = 1 := by
    rw [expSum_eq_sum, hmask]
    simp
  unfold shape
  rw [if_neg one_ne_zero, hscale, ht]
  show softmax ex (maskBelow (A ++ m :: B) m) = _
  rw [softmax_eq ex _ m hm (by rw [hS]; exact one_ne_zero), hS, ← hmask]
  congr 1
  apply List.map_congr_left
  intro l _
  simp

end ShaperTopOne

/-- The reference `nth_element` meets the postcondition of the standard. -/
theorem nth_element_post : NthElementPost nth_element := by
  intro xs n
  unfold nth_element
  by_cases hn : n = xs.length
  · rw [if_pos hn]
    exact ⟨List.Perm.refl _, fun h => absurd hn (by omega)⟩
  · rw [if_neg hn]
    refine ⟨List.perm_insertionSort _ _, fun _ i j hi hj a b ha hb => ?_⟩
    have hsorted : List.Pairwise (fun a b : ℚ => a ≥ b) (xs.insertionSort (fun a b => a ≥ b)) :=
      List.sorted_insertionSort (fun a b : ℚ => a ≥ b) xs
    obtain ⟨hi2, rfl⟩ := List.getElem?_eq_some.mp ha
    obtain ⟨hj2, rfl⟩ := List.getElem?_eq_some.mp hb
    exact List.pairwise_iff_getElem.mp hsorted i j hi2 hj2 (by omega)

/-! ## Rounding to `float` -/

theorem binaryExponent_eq (q : ℚ) (e : Int) (hq : 0 < q) (h1 : (2 : ℚ) ^ e ≤ q)
    (h2 : q < (2 : ℚ) ^ (e + 1)) : binaryExponent q = e := by
  unfold binaryExponent
  have ha : e ≤ Int.log 2 q :=
    (Int.zpow_le_iff_le_log (show (1 : ℕ) < 2 by norm_num) hq).mp (by exact_mod_cast h1)
  have hb : Int.log 2 q < e + 1 :=
    (Int.lt_zpow_iff_log_lt (show (1 : ℕ) < 2 by norm_num) hq).mp (by exact_mod_cast h2)
  omega

theorem roundTiesEven_eq (m : ℚ) (n : Int) (h1 : (n : ℚ) - 1 / 2 < m)
    (h2 : m < (n : ℚ) + 1 / 2) : roundTiesEven m = n := by
  unfold roundTiesEven
  by_cases hlow : (n : ℚ) ≤ m
  · have hf : ⌊m⌋ = n := Int.floor_eq_iff.mpr ⟨hlow, by linarith⟩
    rw [hf, if_pos (by linarith)]
  · have hf : ⌊m⌋ = n - 1 :=
      Int.floor_eq_iff.mpr ⟨by push_cast; linarith, by push_cast; linarith⟩
    rw [hf]
    push_cast
    rw [if_neg (by linarith), if_pos (by linarith)]
    ring

/-- Value of `roundFloat32` at a positive `q` of binary exponent `e ≥ -126` whose
quotient by the unit in the last place is strictly nearest to the integer `n`. -/
theorem roundFloat32_eq (q : ℚ) (e n : Int) (hq : 0 < q) (he : -126 ≤ e)
    (h1 : (2 : ℚ) ^ e ≤ q) (h2 : q < (2 : ℚ) ^ (e + 1))
    (hn1 : (n : ℚ) - 1 / 2 < q / (2 : ℚ) ^ (e - 23))
    (hn2 : q / (2 : ℚ) ^ (e - 23) < (n : ℚ) + 1 / 2)
    (hfin : |(n : ℚ) * (2 : ℚ) ^ (e - 23)| < (2 : ℚ) ^ (128 : Int)) :
    roundFloat32 q = some ((n : ℚ) * (2 : ℚ) ^ (e - 23)) := by
  unfold roundFloat32
  rw [if_neg (ne_of_gt hq)]
  simp only [abs_of_pos hq, binaryExponent_eq q e hq h1 h2, max_eq_left he, ulp32,
    roundTiesEven_eq _ n hn1 hn2]
  rw [if_neg (not_le.mpr hfin)]

/-- Division by `1` in `float` returns every `float` unchanged. -/
theorem scale32_one (row : List ℚ) (hfloat : ∀ l ∈ row, roundFloat32 l = some l) :
    scale32 row 1 = some row := by
  induction row with
  | nil => rfl
  | cons l ls ih =>
    have hl : fdiv32 l 1 = some l := by
      unfold fdiv32
      rw [if_neg one_ne_zero, div_one]
      exact hfloat l (List.mem_cons_self _ _)
    have hls := ih (fun x hx => hfloat x (List.mem_cons_of_mem _ hx))
    simp [scale32, hl, hls]

/-- With `temperature = 1` and a row of `float`s, shaping with the `float` division
and shaping with the exact division agree. -/
theorem shape32_one {F : Type} [LinearOrderedField F] (sel : List ℚ → Nat → List ℚ)
    (ex : ℚ → F) (row : List ℚ) (top : Int)
    (hfloat : ∀ l ∈ row, roundFloat32 l = some l) :
    shape32 sel ex row 1 top = shape sel ex row 1 top := by
  have hscale : scale row 1 = row := by simp [scale]
  unfold shape32 shape
  rw [scale32_one row hfloat, if_neg one_ne_zero, hscale]

theorem roundFloat32_zero : roundFloat32 0 = some 0 := by
  simp [roundFloat32]

theorem roundFloat32_one : roundFloat32 1 = some 1 := by
  rw [roundFloat32_eq 1 0 8388608 (by norm_num) (by norm_num) (by norm_num) (by norm_num)
    (by norm_num) (by norm_num) (by norm_num [abs_lt])]
  norm_num

/-! ## Runs of the loop -/

section Doubles

/-- The stub sampler only returns indices of non-zero probability. -/
theorem firstNonZero_support (pos : Nat) (probs : List ℝ) (h : ∃ p ∈ probs, p ≠ 0) :
    ∃ p, probs[firstNonZero pos probs]? = some p ∧ p ≠ 0 := by
  obtain ⟨p, hp, hne⟩ := h
  have hlt : firstNonZero pos probs < probs.length := by
    unfold firstNonZero
    exact List.findIdx_lt_length_of_exists ⟨p, hp, by simpa using hne⟩
  refine ⟨probs[firstNonZero pos probs], List.getElem?_eq_getElem hlt, ?_⟩
  have := @List.findIdx_getElem _ _ _ hlt
  simpa [firstNonZero] using this

/-- Every step on the stub forward pass is defined for `temperature = 1`, `top = 1`. -/
theorem stubRun_defined (c : List Int) (hc : c ≠ []) :
    ∃ rows raw, ∃ probs : List ℝ, stubRun c = some rows ∧ lastRow rows c = some raw ∧
      shape nth_element (fun q : ℚ => Real.exp q) raw 1 1 = some probs := by
  have hpos : 0 < c.length := List.length_pos.mpr hc
  obtain ⟨t, m, _, _, _, _, _, _, hshape⟩ :=
    shape_valid nth_element nth_element_post (fun q : ℚ => Real.exp q) (by simp)
      (fun q => Real.exp_pos _) [0, 0, 1] 1 1 one_ne_zero (le_refl _) (by simp)
  refine ⟨_, [0, 0, 1], _, rfl, ?_, hshape⟩
  unfold lastRow
  rw [if_neg (by omega)]
  exact List.getElem?_replicate_of_lt (by omega)

end Doubles

section LoopRuns

variable {F : Type} [LinearOrderedField F]

/-- A run in which every step is defined, the window is never exceeded and the
sampler draws the indices `g` and then the terminator: the loop appends them and
stops at the terminator. -/
theorem loop_samples (run : List Int → Option (List (List ℚ)))
    (sampling : Nat → List F → Nat) (sel : List ℚ → Nat → List ℚ) (ex : ℚ → F) (W : Nat)
    (T : ℚ) (top : Int)
    (hstep : ∀ c : List Int, c ≠ [] → ∃ rows raw probs, run c = some rows ∧
      lastRow rows c = some raw ∧ shape sel ex raw T top = some probs)
    (g : List Nat) (hg : ∀ x ∈ g, x ≠ 2) (pos remaining : Nat) (c : List Int)
    (hc : c ≠ []) (hwin : c.length + g.length ≤ W) (hbudget : g.length < remaining)
    (hdraw : ∀ (i x : Nat), g[i]? = some x → ∀ p, sampling (pos + i) p = x)
    (hterm : ∀ p, sampling (pos + g.length) p = 2) :
    loop run sampling sel ex W T top remaining pos c =
      ⟨some (stopSpan (c ++ g.map (fun x : Nat => (x : Int)) ++ [2])), pos + g.length + 1,
        pos + g.length + 1, Exit.stoppedByTerminator⟩ := by
  induction g generalizing pos remaining c with
  | nil =>
    obtain ⟨r, rfl⟩ : ∃ r, remaining = r + 1 := ⟨remaining - 1, by simp at hbudget; omega⟩
    have htr : truncate c W = c := truncate_of_le c W (by simp at hwin; omega)
    obtain ⟨rows, raw, probs, h1, h2, h3⟩ := hstep c hc
    have := loop_terminator run sampling sel ex W T top r pos c rows raw probs
      (by rw [htr]; exact h1) (by rw [htr]; exact h2) h3 (by simpa using hterm probs)
    rw [this, htr]
    simp
  | cons a g ih =>
    obtain ⟨r, rfl⟩ : ∃ r, remaining = r + 1 := ⟨remaining - 1, by simp at hbudget; omega⟩
    have htr : truncate c W = c := truncate_of_le c W (by simp at hwin; omega)
    obtain ⟨rows, raw, probs, h1, h2, h3⟩ := hstep c hc
    have hsa : sampling pos probs = a := by
      have := hdraw 0 a (by simp) probs
      simpa using this
    have hne : sampling pos probs ≠ 2 := by
      rw [hsa]; exact hg a (by simp)
    rw [loop_continue run sampling sel ex W T top r pos c rows raw probs
      (by rw [htr]; exact h1) (by rw [htr]; exact h2) h3 hne, htr, hsa]
    rw [ih (fun x hx => hg x (by simp [hx])) (pos + 1) r (c ++ [(a : Int)]) (by simp)
      (by simp at hwin ⊢; omega) (by simp at hbudget; omega)
      (fun i x hx p => by
        have := hdraw (i + 1) x (by simpa using hx) p
        rw [← this]; congr 1; omega)
      (fun p => by
        have := hterm p
        rw [← this]; congr 1; simp; omega)]
    simp only [List.length_cons, List.map_cons, List.append_assoc, List.singleton_append,
      List.cons_append, List.nil_append, Outcome.mk.injEq, and_true, true_and]
    omega

end LoopRuns

/-- With `top = vocab_size` the reference `nth_element` returns at once and
`sorted[top - 1]` is the last scaled logit. -/
theorem threshold_full_k (raw : List ℚ) (T : ℚ) :
    threshold nth_element (scale raw T) (raw.length : Int) = (scale raw T).getLast? := by
  have hlen : (scale raw T).length = raw.length := by simp [scale]
  unfold threshold nth_element
  rw [if_neg (by omega)]
  by_cases h0 : raw.length = 0
  · have hnil : raw = [] := List.length_eq_zero.mp h0
    subst hnil
    simp [scale]
  · rw [if_neg (by omega), if_pos (by simp [hlen])]
    rw [List.getLast?_eq_getElem?, hlen]
    simp

/-- Shaping of a stub row with `temperature = 1` and `top = 1`. -/
theorem stub_shape :
    shape nth_element (fun q : ℚ => Real.exp q) [0, 0, 1] 1 1 = some [0, 0, 1] :=
  shape_strict_max nth_element nth_element_post (fun q : ℚ => Real.exp q) (by simp)
    [0, 0] [] 1 (by simp) (by simp) (by simp)

theorem firstNonZero_stub : firstNonZero 0 ([0, 0, 1] : List ℝ) = 2 := by
  simp [firstNonZero, List.findIdx_cons]

/-! ## Request validation -/

/-- A key that `lookup` finds is a key the object contains. -/
theorem contains_of_lookup (members : List (String × Json)) (key : String) (v : Json)
    (h : members.lookup key = some v) : (Json.object members).contains key = true := by
  induction members with
  | nil => simp at h
  | cons m ms ih =>
    obtain ⟨k, w⟩ := m
    by_cases hk : key = k
    · simp [Json.contains, hk]
    · have hk2 : (key == k) = false := by simpa using hk
      rw [List.lookup_cons, hk2] at h
      have := ih h
      simp only [Json.contains] at this ⊢
      simp [this]

/-! # Claims -/

/-- C1 (code at the failing input). Logits `[1, 2]`, `temperature = 1`,
`k = 2 = vocab`: `std::nth_element` is called with `nth == last` and leaves the copy
as it is, `sorted[k - 1]` is the last logit `2`, the logit `1` is below it and is
masked, and the shaped distribution is `[0, 1]`: one entry of non-zero probability
where the claim promises at least `k = 2`. -/
theorem topk_support_at_full_k :
    threshold nth_element (scale [1, 2] 1) 2 = some 2 ∧
    maskBelow (scale [1, 2] 1) 2 = [⊥, ((2 : ℚ) : WithBot ℚ)] ∧
    shape nth_element (fun q : ℚ => Real.exp q) [1, 2] 1 2 = some [0, 1] := by
  have ht : threshold nth_element (scale [1, 2] 1) 2 = some 2 := by
    simp [threshold, scale, nth_element]
  have hmask : maskBelow (scale [1, 2] 1) 2 = [⊥, ((2 : ℚ) : WithBot ℚ)] := by
    simp [maskBelow, scale]
  have hmax : max_element [⊥, ((2 : ℚ) : WithBot ℚ)] = some ((2 : ℚ) : WithBot ℚ) := by
    simp [max_element]
  have hsum : expSum (fun q : ℚ => Real.exp q) 2 [⊥, ((2 : ℚ) : WithBot ℚ)] = 1 := by
    simp [expSum, expShifted]
  refine ⟨ht, hmask, ?_⟩
  unfold shape
  rw [if_neg one_ne_zero, ht]
  show softmax _ (maskBelow (scale [1, 2] 1) 2) = _
  rw [hmask, softmax_eq _ _ 2 hmax (by rw [hsum]; exact one_ne_zero), hsum]
  simp [expShifted]

/-- C2 (code at the failing input). With `k = vocab` the call of `std::nth_element`
has `nth == last`, and the threshold read is the last scaled logit, whatever the
logits are. For the logits `[0, 3, 1]`, `temperature = 1`, `k = 3` that is `1`: the
logit `0` is masked and gets probability `0`, while the plain softmax of the scaled
logits gives it a positive probability; so `logits[2] > logits[0]` but `p[0] > 0`
fails. -/
theorem k_clamp_at_full_k :
    (∀ (raw : List ℚ) (T : ℚ),
      threshold nth_element (scale raw T) (raw.length : Int) = (scale raw T).getLast?) ∧
    ∃ probs plain : List ℝ,
      shape nth_element (fun q : ℚ => Real.exp q) [0, 3, 1] 1 3 = some probs ∧
      softmax (fun q : ℚ => Real.exp q)
        ((scale [0, 3, 1] 1).map (fun l : ℚ => (l : WithBot ℚ))) = some plain ∧
      probs[0]? = some 0 ∧ ∃ p, plain[0]? = some p ∧ 0 < p := by
  have ht : threshold nth_element (scale [0, 3, 1] 1) 3 = some 1 := by
    simp [threshold, scale, nth_element]
  have hmask : maskBelow (scale [0, 3, 1] 1) 1 =
      [⊥, ((3 : ℚ) : WithBot ℚ), ((1 : ℚ) : WithBot ℚ)] := by
    simp [maskBelow, scale]
  have hplain : (scale [0, 3, 1] 1).map (fun l : ℚ => (l : WithBot ℚ)) =
      [((0 : ℚ) : WithBot ℚ), ((3 : ℚ) : WithBot ℚ), ((1 : ℚ) : WithBot ℚ)] := by
    simp [scale]
  have hmax1 : max_element [⊥, ((3 : ℚ) : WithBot ℚ), ((1 : ℚ) : WithBot ℚ)] =
      some ((3 : ℚ) : WithBot ℚ) := by
    decide
  have hmax2 : max_element [((0 : ℚ) : WithBot ℚ), ((3 : ℚ) : WithBot ℚ),
      ((1 : ℚ) : WithBot ℚ)] = some ((3 : ℚ) : WithBot ℚ) := by
    decide
  have hpos : ∀ q : ℚ, (0 : ℝ) < (fun q : ℚ => Real.exp q) q := fun q => Real.exp_pos _
  have hs1 := one_le_expSum (fun q : ℚ => Real.exp q) (by simp) hpos 3
    [⊥, ((3 : ℚ) : WithBot ℚ), ((1 : ℚ) : WithBot ℚ)] (by simp)
  have hs2 := one_le_expSum (fun q : ℚ => Real.exp q) (by simp) hpos 3
    [((0 : ℚ) : WithBot ℚ), ((3 : ℚ) : WithBot ℚ), ((1 : ℚ) : WithBot ℚ)] (by simp)
  have h1 : shape nth_element (fun q : ℚ => Real.exp q) [0, 3, 1] 1 3 =
      some (([⊥, ((3 : ℚ) : WithBot ℚ), ((1 : ℚ) : WithBot ℚ)] : List (WithBot ℚ)).map
        (fun l => expShifted (fun q : ℚ => Real.exp q) 3 l /
          expSum (fun q : ℚ => Real.exp q) 3
            [⊥, ((3 : ℚ) : WithBot ℚ), ((1 : ℚ) : WithBot ℚ)])) := by
    unfold shape
    rw [if_neg one_ne_zero, ht]
    show softmax _ (maskBelow (scale [0, 3, 1] 1) 1) = _
    rw [hmask]
    exact softmax_eq _ _ 3 hmax1 (ne_of_gt (lt_of_lt_of_le one_pos hs1))
  have h2 : softmax (fun q : ℚ => Real.exp q)
      ((scale [0, 3, 1] 1).map (fun l : ℚ => (l : WithBot ℚ))) =
      some (([((0 : ℚ) : WithBot ℚ), ((3 : ℚ) : WithBot ℚ), ((1 : ℚ) : WithBot ℚ)] :
        List (WithBot ℚ)).map
        (fun l => expShifted (fun q : ℚ => Real.exp q) 3 l /
          expSum (fun q : ℚ => Real.exp q) 3
            [((0 : ℚ) : WithBot ℚ), ((3 : ℚ) : WithBot ℚ), ((1 : ℚ) : WithBot ℚ)])) := by
    rw [hplain]
    exact softmax_eq _ _ 3 hmax2 (ne_of_gt (lt_of_lt_of_le one_pos hs2))
  refine ⟨threshold_full_k, _, _, h1, h2, by simp [expShifted], _, rfl, ?_⟩
  exact div_pos (hpos (0 - 3)) (lt_of_lt_of_le one_pos hs2)

/-- C3. Windowing: the truncation of lines 50-52 leaves `min L W` tokens, they are
the last `min L W` tokens of the input in the same order, and a context that fits
the window (`W = L + d`) is returned unchanged. -/
theorem truncate_keeps_last_window (context : List Int) (W d : Nat) :
    (truncate context W).length = min context.length W ∧
    truncate context W = context.drop (context.length - min context.length W) ∧
    truncate context (context.length + d) = context := by
  refine ⟨truncate_length context W, ?_, truncate_of_le context _ (by omega)⟩
  unfold truncate
  split
  · congr 1; omega
  · have h : context.length - min context.length W = 0 := by omega
    rw [h, List.drop_zero]

/-- C4. Stop-span extraction: when the token drawn in an iteration is `2`, the loop
is left at once and returns `stopSpan` of the windowed context with the terminator
appended; that span starts at the last occurrence of the literal id `1` (included)
and runs through the terminator, it is the whole context when there is no `1`, and
`[1, a, b, END, SEP, 1, c, d, 2]` yields `[1, c, d, 2]`. -/
theorem stop_span_extraction {F : Type} [LinearOrderedField F]
    (run : List Int → Option (List (List ℚ))) (sampling : Nat → List F → Nat)
    (sel : List ℚ → Nat → List ℚ) (ex : ℚ → F) (W : Nat) (T : ℚ) (top : Int)
    (remaining pos : Nat) (context : List Int) (rows : List (List ℚ)) (raw : List ℚ)
    (probs : List F) (hrun : run (truncate context W) = some rows)
    (hrow : lastRow rows (truncate context W) = some raw)
    (hshape : shape sel ex raw T top = some probs) (hnext : sampling pos probs = 2) :
    loop run sampling sel ex W T top (remaining + 1) pos context =
      ⟨some (stopSpan (truncate context W ++ [2])), pos + 1, pos + 1,
        Exit.stoppedByTerminator⟩ ∧
    (∀ pre suf : List Int, (1 : Int) ∉ suf → stopSpan (pre ++ 1 :: suf ++ [2]) = 1 :: suf ++ [2]) ∧
    (∀ body : List Int, (1 : Int) ∉ body → stopSpan (body ++ [2]) = body ++ [2]) ∧
    (∀ a b c d END SEP : Int, c ≠ 1 → d ≠ 1 →
      stopSpan [1, a, b, END, SEP, 1, c, d, 2] = [1, c, d, 2]) := by
  refine ⟨loop_terminator run sampling sel ex W T top remaining pos context rows raw probs
    hrun hrow hshape hnext, ?_, ?_, ?_⟩
  · intro pre suf h
    have := stopSpan_of_last pre (suf ++ [2]) (by simpa using h)
    simpa using this
  · intro body h
    exact stopSpan_of_not_mem _ (by simpa using h)
  · intro a b c d END SEP hc hd
    exact stopSpan_of_last [1, a, b, END, SEP] [c, d, 2]
      (by simp [Ne.symm hc, Ne.symm hd])

/-- Instance of C4: one iteration on the stub forward pass with the context `[1, 5]`. -/
theorem stop_span_extraction_witness :
    loop stubRun firstNonZero nth_element (fun q : ℚ => Real.exp q) 4 1 1 1 0 [1, 5] =
      ⟨some [1, 5, 2], 1, 1, Exit.stoppedByTerminator⟩ := by
  have h := (stop_span_extraction stubRun firstNonZero nth_element
    (fun q : ℚ => Real.exp q) 4 1 1 0 0 [1, 5] [[0, 0, 1], [0, 0, 1]] [0, 0, 1] [0, 0, 1]
    (by simp [truncate, stubRun]) (by simp [truncate, lastRow]) stub_shape
    firstNonZero_stub).1
  rw [h]
  simp [truncate, stopSpan, find]

/-- C5. Shaping normalization: for finite logits, `temperature > 0` and
`1 ≤ k ≤ vocab`, the read `sorted[k - 1]` succeeds, the largest scaled logit `m`
survives the truncation, the denominator of `softmax` is at least `1` (so the
division of line 31 is never by zero), and the probabilities returned are all
non-negative and sum to `1`, over the reals with `exp(-INFINITY) = 0`. -/
theorem shape_normalized (sel : List ℚ → Nat → List ℚ) (hsel : NthElementPost sel)
    (raw : List ℚ) (T : ℚ) (k : Int) (hT : 0 < T) (h1 : 1 ≤ k) (h2 : k ≤ raw.length) :
    ∃ (t m : ℚ) (probs : List ℝ),
      threshold sel (scale raw T) k = some t ∧
      max_element (maskBelow (scale raw T) t) = some (m : WithBot ℚ) ∧
      (∀ l ∈ scale raw T, l ≤ m) ∧ (m : WithBot ℚ) ∈ maskBelow (scale raw T) t ∧
      (1 : ℝ) ≤ expSum (fun q : ℚ => Real.exp q) m (maskBelow (scale raw T) t) ∧
      shape sel (fun q : ℚ => Real.exp q) raw T k = some probs ∧
      probs.length = raw.length ∧ (∀ p ∈ probs, 0 ≤ p) ∧ probs.sum = 1 := by
  have hpos : ∀ q : ℚ, (0 : ℝ) < (fun q : ℚ => Real.exp q) q := fun q => Real.exp_pos _
  obtain ⟨t, m, ht, _, hm, hmmem, hmle, hsum, hshape⟩ :=
    shape_valid sel hsel (fun q : ℚ => Real.exp q) (by simp) hpos raw T k (ne_of_gt hT) h1 h2
  refine ⟨t, m, _, ht, hm, hmle, hmmem, hsum, hshape, ?_, ?_, ?_⟩
  · simp [maskBelow, scale]
  · intro p hp
    obtain ⟨l, _, rfl⟩ := List.mem_map.mp hp
    exact div_nonneg (expShifted_nonneg _ hpos m l) (le_trans zero_le_one hsum)
  · rw [sum_map_div, ← expSum_eq_sum]
    exact div_self (ne_of_gt (lt_of_lt_of_le one_pos hsum))

/-- Instance of C5: logits `[1, 2, 3]`, `temperature = 1`, `k = 2`, with the reference
`nth_element`. -/
theorem shape_normalized_witness :
    ∃ (t m : ℚ) (probs : List ℝ),
      threshold nth_element (scale [1, 2, 3] 1) 2 = some t ∧
      max_element (maskBelow (scale [1, 2, 3] 1) t) = some (m : WithBot ℚ) ∧
      (∀ l ∈ scale [1, 2, 3] 1, l ≤ m) ∧ (m : WithBot ℚ) ∈ maskBelow (scale [1, 2, 3] 1) t ∧
      (1 : ℝ) ≤ expSum (fun q : ℚ => Real.exp q) m (maskBelow (scale [1, 2, 3] 1) t) ∧
      shape nth_element (fun q : ℚ => Real.exp q) [1, 2, 3] 1 2 = some probs ∧
      probs.length = [(1 : ℚ), 2, 3].length ∧ (∀ p ∈ probs, 0 ≤ p) ∧ probs.sum = 1 :=
  shape_normalized nth_element nth_element_post [1, 2, 3] 1 2 (by norm_num) (by norm_num)
    (by simp)

/-- C6. Loop termination: `inference` is a total function, and for every forward
pass, every sampler, every context and every `max_window` it makes at most
`max_window / 2` forward-pass calls and appends at most as many tokens as it makes
calls; when it is left by the loop condition (no terminator drawn) the budget is
used up exactly. -/
theorem loop_terminates {F : Type} [LinearOrderedField F]
    (run : List Int → Option (List (List ℚ))) (sampling : Nat → List F → Nat)
    (sel : List ℚ → Nat → List ℚ) (ex : ℚ → F) (context : List Int) (W : Int) (T : ℚ)
    (top : Int) :
    (inference run sampling sel ex context W T top).calls ≤ (W / 2).toNat ∧
    (inference run sampling sel ex context W T top).appended ≤
      (inference run sampling sel ex context W T top).calls ∧
    ((inference run sampling sel ex context W T top).exit = Exit.stoppedByLimit →
      (inference run sampling sel ex context W T top).calls = (W / 2).toNat) := by
  have h := loop_counters run sampling sel ex W.toNat T top (W / 2).toNat 0 context
  unfold inference
  refine ⟨by omega, h.2.1, fun e => ?_⟩
  have := h.2.2.2 e
  omega

/-- C7 (counterexample). With `temperature = -1` and `k = 0`, `max_window = 2` and
the context `[1]`, the loop is not refused before inference: a forward-pass call is
made. -/
theorem invalid_parameters_counterexample :
    ¬ ((inference stubRun firstNonZero nth_element (fun q : ℚ => Real.exp q) [1] 2 (-1) 0).calls
        = 0) := by
  have hr : ((2 : Int) / 2).toNat = 0 + 1 := by decide
  have h := loop_first_call stubRun firstNonZero nth_element (fun q : ℚ => Real.exp q)
    (2 : Int).toNat (-1) 0 0 0 [1]
  unfold inference
  rw [hr]
  omega

/-- C7 (amended). Invalid parameters are not rejected before inference: the code has
no parameter check, and for every prompt, every temperature (so every temperature
`≤ 0`) and every `k` (so every `k < 1`), when `max_window ≥ 2` the decoding loop is
entered and a forward-pass call is made, by `inference` on any context and by
`process` on the framed prompt. -/
theorem invalid_parameters_not_rejected {F : Type} [LinearOrderedField F]
    (tokenizer : Tokenizer) (run : List Int → Option (List (List ℚ)))
    (sampling : Nat → List F → Nat) (sel : List ℚ → Nat → List ℚ) (ex : ℚ → F)
    (prompt : String) (context : List Int) (W : Int) (T : ℚ) (top : Int) (hW : 2 ≤ W) :
    1 ≤ (inference run sampling sel ex context W T top).calls ∧
    1 ≤ (process tokenizer run sampling sel ex prompt W T top).1.calls := by
  obtain ⟨r, hr⟩ : ∃ r, (W / 2).toNat = r + 1 := ⟨(W / 2).toNat - 1, by omega⟩
  have h1 := loop_first_call run sampling sel ex W.toNat T top r 0 context
  have h2 := loop_first_call run sampling sel ex W.toNat T top r 0 (preprocess tokenizer prompt)
  constructor
  · unfold inference
    rw [hr]
    omega
  · show 1 ≤ (inference run sampling sel ex (preprocess tokenizer prompt) W T top).calls
    unfold inference
    rw [hr]
    omega

/-- Instance of C7 (amended): `temperature = 0`, `k = -3`, `max_window = 1024`. -/
theorem invalid_parameters_not_rejected_witness :
    1 ≤ (process (stubTokenizer 1 [8, 9]) stubRun firstNonZero nth_element
      (fun q : ℚ => Real.exp q) "hello" 1024 0 (-3)).1.calls :=
  (invalid_parameters_not_rejected (stubTokenizer 1 [8, 9]) stubRun firstNonZero nth_element
    (fun q : ℚ => Real.exp q) "hello" [] 1024 0 (-3) (by norm_num)).2

/-- C8 (counterexample). The `float` row `[0, 1.5 + 2^-23, 1.5 + 2^-22]` has its
strictly largest entry at index `2`, and `temperature = 0.75` is a positive `float`.
Line 77 divides in `float`: both upper entries round to `2 + 2^-22`, they tie at
the `k = 1` threshold, both survive, and the shaped distribution is
`[0, 1/2, 1/2]`: the terminator has probability `1/2`, not `1`, and the sampler
`firstNonZero`, which only returns indices of non-zero probability, returns `1`. -/
theorem immediate_stop_float_counterexample :
    roundFloat32 (12582913 / 8388608) = some (12582913 / 8388608) ∧
    roundFloat32 (6291457 / 4194304) = some (6291457 / 4194304) ∧
    roundFloat32 (3 / 4) = some (3 / 4) ∧
    ((0 : ℚ) < 6291457 / 4194304 ∧ (12582913 / 8388608 : ℚ) < 6291457 / 4194304) ∧
    scale32 [0, 12582913 / 8388608, 6291457 / 4194304] (3 / 4) =
      some [0, 8388609 / 4194304, 8388609 / 4194304] ∧
    shape32 nth_element (fun q : ℚ => Real.exp q)
      [0, 12582913 / 8388608, 6291457 / 4194304] (3 / 4) 1 = some [0, 1 / 2, 1 / 2] ∧
    firstNonZero 0 ([0, 1 / 2, 1 / 2] : List ℝ) = 1 := by
  have ha : roundFloat32 (12582913 / 8388608) = some (12582913 / 8388608) := by
    rw [roundFloat32_eq _ 0 12582913 (by norm_num) (by norm_num) (by norm_num) (by norm_num)
      (by norm_num) (by norm_num) (by norm_num [abs_lt])]
    norm_num
  have hb : roundFloat32 (6291457 / 4194304) = some (6291457 / 4194304) := by
    rw [roundFloat32_eq _ 0 12582914 (by norm_num) (by norm_num) (by norm_num) (by norm_num)
      (by norm_num) (by norm_num) (by norm_num [abs_lt])]
    norm_num
  have hT : roundFloat32 (3 / 4) = some (3 / 4) := by
    rw [roundFloat32_eq _ (-1) 12582912 (by norm_num) (by norm_num) (by norm_num)
      (by norm_num) (by norm_num) (by norm_num) (by norm_num [abs_lt])]
    norm_num
  have h1 : fdiv32 (12582913 / 8388608) (3 / 4) = some (8388609 / 4194304) := by
    unfold fdiv32
    rw [if_neg (by norm_num), roundFloat32_eq _ 1 8388609 (by norm_num) (by norm_num)
      (by norm_num) (by norm_num) (by norm_num) (by norm_num) (by norm_num [abs_lt])]
    norm_num
  have h2 : fdiv32 (6291457 / 4194304) (3 / 4) = some (8388609 / 4194304) := by
    unfold fdiv32
    rw [if_neg (by norm_num), roundFloat32_eq _ 1 8388609 (by norm_num) (by norm_num)
      (by norm_num) (by norm_num) (by norm_num) (by norm_num) (by norm_num [abs_lt])]
    norm_num
  have h0 : fdiv32 0 (3 / 4) = some 0 := by
    simp [fdiv32, roundFloat32]
  have hscale : scale32 [0, 12582913 / 8388608, 6291457 / 4194304] (3 / 4) =
      some [0, 8388609 / 4194304, 8388609 / 4194304] := by
    simp [scale32, h0, h1, h2]
  have ht : threshold nth_element [0, 8388609 / 4194304, 8388609 / 4194304] 1 =
      some (8388609 / 4194304) := by
    simp [threshold, nth_element, List.insertionSort, List.orderedInsert]
    norm_num
  have hmask : maskBelow [0, 8388609 / 4194304, 8388609 / 4194304] (8388609 / 4194304) =
      [⊥, ((8388609 / 4194304 : ℚ) : WithBot ℚ), ((8388609 / 4194304 : ℚ) : WithBot ℚ)] := by
    simp [maskBelow]
  have hmax : max_element
      [⊥, ((8388609 / 4194304 : ℚ) : WithBot ℚ), ((8388609 / 4194304 : ℚ) : WithBot ℚ)] =
      some ((8388609 / 4194304 : ℚ) : WithBot ℚ) := by
    simp [max_element]
  have hsum : expSum (fun q : ℚ => Real.exp q) (8388609 / 4194304)
      [⊥, ((8388609 / 4194304 : ℚ) : WithBot ℚ), ((8388609 / 4194304 : ℚ) : WithBot ℚ)] =
      2 := by
    simp [expSum, expShifted]
    norm_num
  refine ⟨ha, hb, hT, ⟨by norm_num, by norm_num⟩, hscale, ?_, ?_⟩
  · unfold shape32
    rw [hscale]
    show (match threshold nth_element [0, 8388609 / 4194304, 8388609 / 4194304] 1 with
      | none => none
      | some t => softmax (fun q : ℚ => Real.exp q)
          (maskBelow [0, 8388609 / 4194304, 8388609 / 4194304] t)) = _
    rw [ht]
    show softmax _ (maskBelow [0, 8388609 / 4194304, 8388609 / 4194304] (8388609 / 4194304))
      = _
    rw [hmask, softmax_eq _ _ _ hmax (by rw [hsum]; norm_num), hsum]
    simp [expShifted]
  · simp [firstNonZero, List.findIdx_cons]

/-- C8 (amended). Immediate stop with the parameters the `/api/compose` handler
passes, `temperature = 1` and `k = 1`: for a non-empty context and
`max_window ≥ 2`, when the forward pass returns for the last position a row whose
strictly largest entry `x` is at index `2` (the terminator id), the shaped
distribution gives probability `1` to index `2` and `0` to every other index, a
sampler that only returns indices of non-zero probability returns `2`, and
`inference` leaves the loop by the terminator after exactly one forward-pass call.
The division by `1` of line 77 is exact in `float`: for a row of `float`s the
shaping with the `float` division gives the same distribution. -/
theorem immediate_stop_unit_temperature (run : List Int → Option (List (List ℚ)))
    (sampling : Nat → List ℝ → Nat) (sel : List ℚ → Nat → List ℚ)
    (hsel : NthElementPost sel) (context : List Int) (W : Int)
    (rows : List (List ℚ)) (row : List ℚ) (x : ℚ)
    (hctx : context ≠ []) (hW : 2 ≤ W)
    (hrun : run (truncate context W.toNat) = some rows)
    (hrow : rows[(truncate context W.toNat).length - 1]? = some row)
    (hfloat : ∀ l ∈ row, roundFloat32 l = some l)
    (hx : row[2]? = some x)
    (hmax : ∀ (i : Nat) (l : ℚ), i ≠ 2 → row[i]? = some l → l < x)
    (hsamp : ∀ (pos : Nat) (probs : List ℝ), (∃ p ∈ probs, p ≠ 0) →
      ∃ p, probs[sampling pos probs]? = some p ∧ p ≠ 0) :
    ∃ probs : List ℝ,
      shape sel (fun q : ℚ => Real.exp q) row 1 1 = some probs ∧
      shape32 sel (fun q : ℚ => Real.exp q) row 1 1 = some probs ∧
      probs[2]? = some 1 ∧ (∀ (i : Nat) (p : ℝ), i ≠ 2 → probs[i]? = some p → p = 0) ∧
      sampling 0 probs = 2 ∧
      inference run sampling sel (fun q : ℚ => Real.exp q) context W 1 1 =
        ⟨some (stopSpan (truncate context W.toNat ++ [2])), 1, 1,
          Exit.stoppedByTerminator⟩ := by
  obtain ⟨h2, hx2⟩ := List.getElem?_eq_some.mp hx
  have hsplit : row = row.take 2 ++ x :: row.drop 3 := by
    conv_lhs => rw [← List.take_append_drop 2 row, List.drop_eq_getElem_cons h2, hx2]
  have hA : ∀ a ∈ row.take 2, a < x := by
    intro a ha
    obtain ⟨i, hi, rfl⟩ := List.mem_take_iff_getElem.mp ha
    exact hmax i _ (by omega) (List.getElem?_eq_getElem _)
  have hB : ∀ b ∈ row.drop 3, b < x := by
    intro b hb
    obtain ⟨i, hi, rfl⟩ := List.mem_drop_iff_getElem.mp hb
    exact hmax (3 + i) _ (by omega) (List.getElem?_eq_getElem _)
  have hshape : shape sel (fun q : ℚ => Real.exp q) row 1 1 =
      some (List.replicate (row.take 2).length 0 ++ 1 ::
        List.replicate (row.drop 3).length 0) := by
    conv_lhs => rw [hsplit]
    exact shape_strict_max sel hsel (fun q : ℚ => Real.exp q) (by simp)
      _ _ x (by rw [← hsplit]; omega) hA hB
  have hlenA : (row.take 2).length = 2 := by
    rw [List.length_take]; omega
  rw [hlenA] at hshape
  have hp2 : (List.replicate 2 (0 : ℝ) ++ 1 :: List.replicate (row.drop 3).length 0)[2]? =
      some 1 := by
    rw [List.getElem?_append_right (by simp)]
    simp
  have hp0 : ∀ (i : Nat) (p : ℝ), i ≠ 2 →
      (List.replicate 2 (0 : ℝ) ++ 1 :: List.replicate (row.drop 3).length 0)[i]? = some p →
      p = 0 := by
    intro i p hi hp
    have hmem := List.getElem?_mem hp
    rcases List.mem_append.mp hmem with h | h
    · exact (List.mem_replicate.mp h).2
    · rcases List.mem_cons.mp h with h | h
      · exfalso
        rcases Nat.lt_or_ge i 2 with hlt | hge
        · rw [List.getElem?_append_left (by simpa using hlt)] at hp
          rw [List.getElem?_replicate_of_lt hlt] at hp
          rw [h] at hp
          norm_num at hp
        · rw [List.getElem?_append_right (by simpa using hge)] at hp
          obtain ⟨d, hd⟩ : ∃ d, i - 2 = d + 1 := ⟨i - 3, by omega⟩
          simp only [List.length_replicate, hd, List.getElem?_cons_succ] at hp
          have := (List.mem_replicate.mp (List.getElem?_mem hp)).2
          rw [h] at this
          norm_num at this
      · exact (List.mem_replicate.mp h).2
  have hs : sampling 0 (List.replicate 2 (0 : ℝ) ++ 1 :: List.replicate (row.drop 3).length 0)
      = 2 := by
    have hmem : (1 : ℝ) ∈
        List.replicate 2 (0 : ℝ) ++ 1 :: List.replicate (row.drop 3).length 0 := by simp
    obtain ⟨p, hp, hne⟩ := hsamp 0 _ ⟨1, hmem, one_ne_zero⟩
    by_contra hcon
    exact hne (hp0 _ p hcon hp)
  refine ⟨_, hshape, (shape32_one sel _ row 1 hfloat).trans hshape, hp2, hp0, hs, ?_⟩
  have hlen : (truncate context W.toNat).length = min context.length W.toNat :=
    truncate_length context W.toNat
  have hpos : 0 < context.length := List.length_pos.mpr hctx
  have hlast : lastRow rows (truncate context W.toNat) = some row := by
    unfold lastRow
    rw [if_neg (by omega)]
    exact hrow
  obtain ⟨r, hr⟩ : ∃ r, (W / 2).toNat = r + 1 := ⟨(W / 2).toNat - 1, by omega⟩
  unfold inference
  rw [hr]
  exact loop_terminator run sampling sel _ W.toNat 1 1 r 0 context rows row _ hrun hlast
    hshape hs

/-- Instance of C8 (amended): the stub forward pass, the context `[1]`,
`max_window = 2`. -/
theorem immediate_stop_unit_temperature_witness :
    ∃ probs : List ℝ,
      shape nth_element (fun q : ℚ => Real.exp q) [0, 0, 1] 1 1 = some probs ∧
      shape32 nth_element (fun q : ℚ => Real.exp q) [0, 0, 1] 1 1 = some probs ∧
      probs[2]? = some 1 ∧ (∀ (i : Nat) (p : ℝ), i ≠ 2 → probs[i]? = some p → p = 0) ∧
      firstNonZero 0 probs = 2 ∧
      inference stubRun firstNonZero nth_element (fun q : ℚ => Real.exp q) [1] 2 1 1 =
        ⟨some (stopSpan (truncate [1] (2 : Int).toNat ++ [2])), 1, 1,
          Exit.stoppedByTerminator⟩ :=
  immediate_stop_unit_temperature stubRun firstNonZero nth_element nth_element_post [1] 2
    [[0, 0, 1]] [0, 0, 1] 1 (by simp) (le_refl _) (by simp [stubRun, truncate])
    (by simp [truncate])
    (fun l hl => by
      rcases List.mem_cons.mp hl with rfl | hl
      · exact roundFloat32_zero
      · rcases List.mem_cons.mp hl with rfl | hl
        · exact roundFloat32_zero
        · rw [List.mem_singleton.mp hl]
          exact roundFloat32_one)
    (by simp)
    (fun i l hi h => by
      rcases i with _ | _ | _ | i
      · simp at h; rw [← h]; norm_num
      · simp at h; rw [← h]; norm_num
      · exact absurd rfl hi
      · simp at h)
    firstNonZero_support

/-- C9 (counterexample). A tokenizer that resolves `<|BEGIN|>` to `5`, the empty
encoding, `n = 0`, `max_window = 4` and a sampler that draws the terminator at
once: the framed context is `[5, 6, 7, 5]` and `inference` returns the whole
context `[5, 6, 7, 5, 2]`, not `[5, 2]`, because the scan looks for the literal
id `1`. -/
theorem framed_span_counterexample :
    preprocess (stubTokenizer 5 []) "" = [5, 6, 7, 5] ∧
    (inference stubRun (scripted []) nth_element (fun q : ℚ => Real.exp q)
      (preprocess (stubTokenizer 5 []) "") 4 1 1).context = some [5, 6, 7, 5, 2] ∧
    (inference stubRun (scripted []) nth_element (fun q : ℚ => Real.exp q)
      (preprocess (stubTokenizer 5 []) "") 4 1 1).context ≠ some [5, 2] := by
  have hpre : preprocess (stubTokenizer 5 []) "" = [5, 6, 7, 5] := by
    simp [preprocess, stubTokenizer]
  have hr : (4 / 2 : Int).toNat = 2 := by decide
  have hrun : inference stubRun (scripted []) nth_element (fun q : ℚ => Real.exp q)
      (preprocess (stubTokenizer 5 []) "") 4 1 1 =
      ⟨some [5, 6, 7, 5, 2], 1, 1, Exit.stoppedByTerminator⟩ := by
    unfold inference
    rw [hpre, hr, loop_samples stubRun (scripted []) nth_element (fun q : ℚ => Real.exp q)
      (4 : Int).toNat 1 1 stubRun_defined [] (by simp) 0 2 [5, 6, 7, 5] (by simp)
      (by simp) (by simp) (by simp) (fun p => by simp [scripted])]
    simp [stopSpan, find]
  rw [hrun]
  exact ⟨hpre, rfl, by decide⟩

/-- C9 (amended). For every tokenizer the framed context is
`[BEGIN] ++ encode(prompt) ++ [END, SEPARATOR, BEGIN]`; and for every tokenizer that
resolves `<|BEGIN|>` to the id `1`, when every step of the run is defined,
`max_window ≥ len(encode(prompt)) + 4 + n`, `n + 1 ≤ max_window / 2` and the loop
draws `g1, ..., gn` (none equal to `1` or `2`) and then the terminator `2`,
`inference` returns `[1, g1, ..., gn, 2]` after `n + 1` steps. -/
theorem framed_response_span {F : Type} [LinearOrderedField F] (tokenizer : Tokenizer)
    (run : List Int → Option (List (List ℚ))) (sampling : Nat → List F → Nat)
    (sel : List ℚ → Nat → List ℚ) (ex : ℚ → F) (prompt : String) (g : List Nat) (W : Int)
    (T : ℚ) (top : Int)
    (hbegin : tokenizer.PieceToId "<|BEGIN|>" = 1)
    (hstep : ∀ c : List Int, c ≠ [] → ∃ rows raw probs, run c = some rows ∧
      lastRow rows c = some raw ∧ shape sel ex raw T top = some probs)
    (hwin : (((tokenizer.Encode prompt).length + 4 + g.length : Nat) : Int) ≤ W)
    (hbudget : ((g.length + 1 : Nat) : Int) ≤ W / 2)
    (hg : ∀ x ∈ g, x ≠ 1 ∧ x ≠ 2)
    (hdraw : ∀ (i x : Nat), g[i]? = some x → ∀ p, sampling i p = x)
    (hterm : ∀ p, sampling g.length p = 2) :
    preprocess tokenizer prompt =
      [tokenizer.PieceToId "<|BEGIN|>"] ++ tokenizer.Encode prompt ++
        [tokenizer.PieceToId "<|END|>", tokenizer.PieceToId "<|SEPARATOR|>",
          tokenizer.PieceToId "<|BEGIN|>"] ∧
    inference run sampling sel ex (preprocess tokenizer prompt) W T top =
      ⟨some (1 :: g.map (fun x : Nat => (x : Int)) ++ [2]), g.length + 1, g.length + 1,
        Exit.stoppedByTerminator⟩ := by
  refine ⟨rfl, ?_⟩
  have hlen : (preprocess tokenizer prompt).length = (tokenizer.Encode prompt).length + 4 := by
    simp [preprocess]
  have hne : preprocess tokenizer prompt ≠ [] := by
    intro h
    rw [h] at hlen
    simp at hlen
  unfold inference
  rw [loop_samples run sampling sel ex W.toNat T top hstep g (fun x hx => (hg x hx).2) 0
    (W / 2).toNat (preprocess tokenizer prompt) hne (by omega) (by omega)
    (fun i x hx p => by rw [Nat.zero_add]; exact hdraw i x hx p)
    (fun p => by rw [Nat.zero_add]; exact hterm p)]
  have hsuf : (1 : Int) ∉ g.map (fun x : Nat => (x : Int)) ++ [2] := by
    intro h
    rcases List.mem_append.mp h with h | h
    · obtain ⟨x, hx, hx1⟩ := List.mem_map.mp h
      exact (hg x hx).1 (by exact_mod_cast hx1)
    · simp at h
  have hspan : stopSpan (preprocess tokenizer prompt ++ g.map (fun x : Nat => (x : Int)) ++ [2])
      = 1 :: (g.map (fun x : Nat => (x : Int)) ++ [2]) := by
    have := stopSpan_of_last ([1] ++ tokenizer.Encode prompt ++
      [tokenizer.PieceToId "<|END|>", tokenizer.PieceToId "<|SEPARATOR|>"])
      (g.map (fun x : Nat => (x : Int)) ++ [2]) hsuf
    rw [← this]
    congr 1
    simp [preprocess, hbegin]
  rw [hspan]
  simp

/-- Instance of C9 (amended): `<|BEGIN|>` resolved to `1`, the encoding `[8, 9]`,
the draws `0` and then the terminator, `max_window = 8`. -/
theorem framed_response_span_witness :
    inference stubRun (scripted [0]) nth_element (fun q : ℚ => Real.exp q)
      (preprocess (stubTokenizer 1 [8, 9]) "hello") 8 1 1 =
      ⟨some [1, 0, 2], 2, 2, Exit.stoppedByTerminator⟩ :=
  (framed_response_span (stubTokenizer 1 [8, 9]) stubRun (scripted [0]) nth_element
    (fun q : ℚ => Real.exp q) "hello" [0] 8 1 1 (by simp [stubTokenizer]) stubRun_defined
    (by simp [stubTokenizer]) (by decide) (by simp)
    (fun i x hx p => by
      rcases i with _ | i
      · simp at hx; simp [scripted, hx]
      · simp at hx)
    (fun p => by simp [scripted])).2

/-- C10 (counterexample). The body `{"query": "hi"}` parses as an object with a
string `query` and no `metadata`; the validation collects a field error for
`metadata` and the handler answers 422 instead of calling `process`. -/
theorem metadata_optional_counterexample :
    composeErrors (Json.object [("query", Json.string "hi")]) ≠ [] ∧
    compose true "\x7b\"query\": \"hi\"\x7d" (some (Json.object [("query", Json.string "hi")])) =
      Reply.status422
        (build_validation_error [⟨["metadata"], "Field required", "value_error.missing"⟩]) := by
  constructor
  · simp [composeErrors, Json.contains, Json.get, Json.is_string]
  · have hbody : ("\x7b\"query\": \"hi\"\x7d" : String).isEmpty = false := by decide
    simp [compose, composeErrors, Json.contains, Json.get, Json.is_string, hbody]

/-- C10 (amended). The `metadata` field is required: for every body that parses as
a JSON object with a string `query` field and no `metadata` field, the validation
collects exactly the field error `metadata: Field required` and the handler answers
422 without calling `process`; the type error for `metadata` is collected only when
the field is present and is neither an object nor null; and when `metadata` is
present and is null or an object no error is collected and the prompt goes to
`process` with `max_context = 1024`, `temperature = 1` and `top_k = 1`. -/
theorem metadata_required (members : List (String × Json)) (q body : String)
    (hq : members.lookup "query" = some (Json.string q))
    (hbody : body.isEmpty = false) :
    ((Json.object members).contains "metadata" = false →
      composeErrors (Json.object members) =
        [⟨["metadata"], "Field required", "value_error.missing"⟩] ∧
      compose true body (some (Json.object members)) =
        Reply.status422
          (build_validation_error
            [⟨["metadata"], "Field required", "value_error.missing"⟩])) ∧
    ((⟨["metadata"], "Input should be an object or null", "type_error"⟩ : FieldError) ∈
        composeErrors (Json.object members) →
      (Json.object members).contains "metadata" = true ∧
      ((Json.object members).get "metadata").is_null = false ∧
      ((Json.object members).get "metadata").is_object = false) ∧
    ((Json.object members).contains "metadata" = true →
      ((Json.object members).get "metadata").is_null = true ∨
        ((Json.object members).get "metadata").is_object = true →
      composeErrors (Json.object members) = [] ∧
      compose true body (some (Json.object members)) = Reply.callsProcess q 1024 1 1) := by
  have hc := contains_of_lookup members "query" _ hq
  have hg : (Json.object members).get "query" = Json.string q := by
    simp [Json.get, hq]
  have hs : ((Json.object members).get "query").is_string = true := by
    rw [hg]; rfl
  refine ⟨fun hm => ?_, fun hmem => ?_, fun hm hv => ?_⟩
  · have he : composeErrors (Json.object members) =
        [⟨["metadata"], "Field required", "value_error.missing"⟩] := by
      simp [composeErrors, hc, hs, hm]
    refine ⟨he, ?_⟩
    simp [compose, hbody, he]
  · by_cases hm : (Json.object members).contains "metadata" = true
    · by_cases hv : (!((Json.object members).get "metadata").is_null &&
          !((Json.object members).get "metadata").is_object) = true
      · simp only [Bool.and_eq_true, Bool.not_eq_true'] at hv
        exact ⟨hm, hv.1, hv.2⟩
      · exfalso
        simp [composeErrors, hc, hs, hm, hv] at hmem
    · exfalso
      simp [composeErrors, hc, hs, hm] at hmem
  · have hv2 : (!((Json.object members).get "metadata").is_null &&
        !((Json.object members).get "metadata").is_object) = false := by
      rcases hv with h | h <;> simp [h]
    have he : composeErrors (Json.object members) = [] := by
      simp [composeErrors, hc, hs, hm, hv2]
    refine ⟨he, ?_⟩
    simp [compose, hbody, he, hg]

/-- Instance of C10 (amended): the body `{"query": "hi"}`. -/
theorem metadata_required_witness :
    composeErrors (Json.object [("query", Json.string "hi")]) =
      [⟨["metadata"], "Field required", "value_error.missing"⟩] :=
  ((metadata_required [("query", Json.string "hi")] "hi" "\x7b\"query\": \"hi\"\x7d"
    (by simp [List.lookup]) (by decide)).1
      (by simp [Json.contains])).1

end Nexus
